import Mathlib

/-!
Verification of the PyNAM analysis pipeline (`run.py`): the result-table data
model, the analysis merger (`append_analysis`), the finalizer
(`finalize_analysis`), the per-job analyzer (`analyse_output`) and the bounded
process scheduler (`execute_networks`).

Numeric matrix entries are embedded as extended rationals (`NpFloat`): the
source stores IEEE floats and uses `np.inf` as the "invalid latency" marker;
NaN never arises on the modelled paths.
-/

/-- An extended rational: a finite value or positive infinity (`np.inf`).
The result matrices of `run.py` contain `np.inf` in the `lat_avg` column when
no valid latency sample exists. -/
inductive NpFloat where
  | fin (q : ℚ)
  | inf
deriving DecidableEq, Repr

/-- Strict comparison on `NpFloat`; `np.inf` is greater than every finite value. -/
def NpFloat.lt : NpFloat → NpFloat → Bool
  | .fin a, .fin b => decide (a < b)
  | .fin _, .inf => true
  | .inf, _ => false

/-- One row of a result matrix. -/
abbrev NpRow := List NpFloat

/-- Comparison of two rows by their first `d` entries with the LAST entry as
the primary key: `revLexB (d+1) r1 r2` first compares column `d`, falling
back to the remaining columns `0..d-1` on a tie.  This is the key order
implemented by `np.lexsort(sort_keys)` in `finalize_analysis`, where
`sort_keys` lists the varied-parameter columns `0..dims-1` in declared order
and numpy's contract makes the last key of the sequence the primary one. -/
def revLexB : Nat → NpRow → NpRow → Bool
  | 0, _, _ => true
  | d+1, r1, r2 =>
    if NpFloat.lt (r1.getD d (.fin 0)) (r2.getD d (.fin 0)) then true
    else if NpFloat.lt (r2.getD d (.fin 0)) (r1.getD d (.fin 0)) then false
    else revLexB d r1 r2

/-- The per-job timing record; the source keys are `total`, `sim`,
`initialize` (field `init`) and `finalize` (field `fin`). -/
structure TimeRec where
  total : ℚ
  sim : ℚ
  init : ℚ
  fin : ℚ
deriving DecidableEq, Repr

/-- Pointwise addition of the timing record, as performed by the
`result[name]["time"][key] = result[name]["time"][key] + t` loop. -/
def timeAdd (a b : TimeRec) : TimeRec :=
  ⟨a.total + b.total, a.sim + b.sim, a.init + b.init, a.fin + b.fin⟩

/-- The zero timing record used when a result entry is first created. -/
def timeZero : TimeRec := ⟨0, 0, 0, 0⟩

/-- One per-experiment result table (`result[name]` in `analyse_output`):
column keys, number of varied-parameter columns (`dims`), simulator name,
accumulated timing, the numeric matrix (`declared size × len(keys)`), and the
running write cursor `idx`. -/
structure ResultTable where
  keys : List String
  dims : Nat
  simulator : String
  time : TimeRec
  data : List NpRow
  idx : Nat
deriving DecidableEq, Repr

/-- A result table after `finalize_analysis` has stripped the `idx` field. -/
structure FinalTable where
  keys : List String
  dims : Nat
  simulator : String
  time : TimeRec
  data : List NpRow
deriving DecidableEq, Repr

/-- `np.lexsort`-based reordering of the matrix rows: numpy's documented
contract is an indirect STABLE sort whose primary key is the last key of the
given sequence; `finalize_analysis` passes the varied-parameter columns
`0..dims-1` in declared order, so rows are stably sorted by `revLexB dims`
(last varied column primary).  `List.insertionSort` is the canonical stable
sort. -/
def npLexsort (dims : Nat) (rows : List NpRow) : List NpRow :=
  List.insertionSort (fun r1 r2 => revLexB dims r1 r2 = true) rows

/-- The per-table part of `finalize_analysis`: sort the matrix by the
varied-parameter columns when `dims > 0` and drop the cursor field.  (The 1-D
reshape branch of the source only renormalizes the shape of a single-row
matrix deserialized from a Matlab file; matrices are always row lists here.
The single-row pretty-printing is I/O only.) -/
def finalizeTable (t : ResultTable) : FinalTable :=
  { keys := t.keys, dims := t.dims, simulator := t.simulator, time := t.time,
    data := if t.dims > 0 then npLexsort t.dims t.data else t.data }

/-- The mapping from experiment name to result table, in dict insertion order. -/
abbrev AnalysisMap := List (String × ResultTable)

/-- `finalize_analysis`: finalize every table of the mapping. -/
def finalize_analysis (m : AnalysisMap) : List (String × FinalTable) :=
  m.map (fun e => (e.1, finalizeTable e.2))

/-- Modelled from the spec: ascending lexicographic comparison of two rows on
their first `dims` columns in DECLARED order, first column primary.  This is
the sort key order the specification claims for the finalizer; it is compared
against the `revLexB` order actually realized by `np.lexsort`. -/
def declLexLe : Nat → NpRow → NpRow → Bool
  | 0, _, _ => true
  | d+1, r1, r2 =>
    if NpFloat.lt (r1.getD 0 (.fin 0)) (r2.getD 0 (.fin 0)) then true
    else if NpFloat.lt (r2.getD 0 (.fin 0)) (r1.getD 0 (.fin 0)) then false
    else declLexLe d (r1.drop 1) (r2.drop 1)

/-- numpy slice assignment `d1[i:(i+k), :] = rows` (with `k = rows.length`):
the target slice is clipped to the matrix bounds; the assignment succeeds when
the value's row count matches the clipped slice length, or when the value has
exactly one row (numpy broadcasts a length-1 axis to any target length,
including 0); any other mismatch raises a `ValueError`, modelled as `none`. -/
def sliceAssign (d1 : List NpRow) (i : Nat) (rows : List NpRow) :
    Option (List NpRow) :=
  let lo := min d1.length i
  let hi := min d1.length (i + rows.length)
  if rows.length = hi - lo then
    some (d1.take lo ++ rows ++ d1.drop hi)
  else
    match rows with
    | [r] => some (d1.take lo ++ List.replicate (hi - lo) r ++ d1.drop hi)
    | _ => none

/-- The per-name merge step of `append_analysis` for a name present in both
mappings: copy rows `[0, idx2)` of the source matrix into the destination
matrix starting at its cursor, then advance the cursor.  The raised
`ValueError` of an impossible slice assignment is modelled as `Except.error`;
it is raised before the cursor update. -/
def appendTable (t1 t2 : ResultTable) : Except Unit ResultTable :=
  match sliceAssign t1.data t1.idx (t2.data.take t2.idx) with
  | some d => .ok { t1 with data := d, idx := t1.idx + t2.idx }
  | none => .error ()

/-- Python dict value assignment `analysis[experiment] = t` for an existing
key: the value is replaced in place, the key keeps its position. -/
def updateEntry (m : AnalysisMap) (n : String) (t : ResultTable) : AnalysisMap :=
  m.map (fun e => if e.1 = n then (n, t) else e)

/-- `append_analysis(analysis, analysis_part)`: for each experiment of the
part (in insertion order, skipping internal `__`-prefixed names), adopt it
wholesale when absent, otherwise block-copy its valid rows and advance the
cursor.  A failed slice assignment aborts the whole merge. -/
def append_analysis (a b : AnalysisMap) : Except Unit AnalysisMap :=
  b.foldlM (fun acc e =>
    if e.1.startsWith "__" then pure acc
    else
      match List.lookup e.1 acc with
      | none => pure (acc ++ [e])
      | some t0 => do
        let t ← appendTable t0 e.2
        pure (updateEntry acc e.1 t)) a

/-- One error record as summed by `analyse_output` over the lists returned by
`calculate_storage_capactiy` / `calculate_max_storage_capacity`. -/
structure ErrRec where
  fp : ℚ
  fn : ℚ
deriving DecidableEq, Repr

/-- The meta data attached to one analysis instance. -/
structure MetaData where
  experiment_name : String
  keys : List String
  experiment_size : Nat
  simulator : String
deriving DecidableEq, Repr

/-- The data parameters consumed by the false-positive/negative normalizers. -/
structure DataParams where
  n_samples : ℚ
  n_bits_out : ℚ
  n_ones_out : ℚ
deriving DecidableEq, Repr

/-- One analysis instance as produced by the external demultiplexer
`pool.build_analysis`, together with the values its external metric
collaborators return: `calculate_storage_capactiy` (field `I` and `errs`),
`calculate_max_storage_capacity` (`I_ref`, `errs_ref`),
`calculate_latencies` (`latencies`), the dotted-path lookup into the
parameter snapshots (`resolve`) and the data parameters. -/
structure AnalysisInstance where
  meta_data : MetaData
  resolve : String → ℚ
  I : ℚ
  errs : List ErrRec
  I_ref : ℚ
  errs_ref : List ErrRec
  latencies : List NpFloat
  data_params : DataParams

/-- The 12 fixed metric column keys appended after the varied-parameter keys. -/
def metricKeys : List String :=
  ["I", "I_n", "I_ref", "fp", "fp_n", "fp_ref", "fp_ref_n", "fn", "fn_n",
   "lat_avg", "lat_std", "n_lat_inv"]

/-- The fresh result table created on first encounter of an experiment name
(lines 374-389): varied keys plus metric keys, zero timing, a zero matrix of
`experiment_size` rows, cursor 0. -/
def zeroTable (md : MetaData) : ResultTable :=
  { keys := md.keys ++ metricKeys,
    dims := md.keys.length,
    simulator := md.simulator,
    time := timeZero,
    data := List.replicate md.experiment_size
      (List.replicate (md.keys ++ metricKeys).length (.fin 0)),
    idx := 0 }

/-- `latencies[latencies != np.inf]`: the finite latency samples. -/
def latValid (ls : List NpFloat) : List ℚ :=
  ls.filterMap (fun l => match l with | .fin q => some q | .inf => none)

/-- `np.mean` over rationals: the arithmetic mean. -/
def npMean (xs : List ℚ) : ℚ := xs.sum / xs.length

/-- The false-positive normalizer `n_samples * (n_bits_out - n_ones_out)`. -/
def normFp (a : AnalysisInstance) : ℚ :=
  a.data_params.n_samples * (a.data_params.n_bits_out - a.data_params.n_ones_out)

/-- The false-negative normalizer `n_samples * n_ones_out`. -/
def normFn (a : AnalysisInstance) : ℚ :=
  a.data_params.n_samples * a.data_params.n_ones_out

/-- The `values` row assembled for one analysis instance (lines 399-449): a
zero row of the stored table's width, the resolved varied-parameter values at
positions `0..len(meta keys)-1`, and the 12 metrics at offsets
`dims..dims+11`.  `npStd` stands for the external `np.std` collaborator (its
value is irrational in general); the zero-valid-latency branch never calls
it, mirroring the source's conditional. -/
def buildValues (npStd : List ℚ → ℚ) (tableKeys : List String) (offs : Nat)
    (a : AnalysisInstance) : NpRow :=
  let values : NpRow := List.replicate tableKeys.length (.fin 0)
  let values := a.meta_data.keys.enum.foldl
    (fun v p => v.set p.1 (.fin (a.resolve p.2))) values
  let fp := (a.errs.map (·.fp)).sum
  let fp_ref := (a.errs_ref.map (·.fp)).sum
  let fn := (a.errs.map (·.fn)).sum
  let lats := latValid a.latencies
  let latInvCount : ℚ := (a.latencies.length - lats.length : ℕ)
  let latAvg : NpFloat := if lats.length > 0 then .fin (npMean lats) else .inf
  let latStd : ℚ := if lats.length > 0 then npStd lats else 0
  let values := values.set (offs + 0) (.fin a.I)
  let values := values.set (offs + 1)
    (.fin (if a.I_ref = 0 then 0 else a.I / a.I_ref))
  let values := values.set (offs + 2) (.fin a.I_ref)
  let values := values.set (offs + 3) (.fin fp)
  let values := values.set (offs + 4)
    (.fin (if normFp a = 0 then 0 else fp / normFp a))
  let values := values.set (offs + 5) (.fin fp_ref)
  let values := values.set (offs + 6)
    (.fin (if normFp a = 0 then 0 else fp_ref / normFp a))
  let values := values.set (offs + 7) (.fin fn)
  let values := values.set (offs + 8)
    (.fin (if normFn a = 0 then 0 else fn / normFn a))
  let values := values.set (offs + 9) latAvg
  let values := values.set (offs + 10) (.fin latStd)
  values.set (offs + 11) (.fin latInvCount)

/-- One job's result as consumed by `analyse_output`: the timing info and the
analysis instances the external demultiplexer extracts from the output. -/
structure JobOutput where
  times : TimeRec
  instances : List AnalysisInstance

/-- The per-instance body of `analyse_output` (lines 369-453): create the
experiment's table on first encounter, add the job's timing on the job's
FIRST instance only (`i == 0`), assemble the metric row and store it at the
cursor.  (The out-of-range row write of an oversized job, an `IndexError` in
the source, is modelled by `List.set`'s no-op; the theorems below assume
capacity, which every well-formed experiment satisfies.) -/
def analyseStep (npStd : List ℚ → ℚ) (times : TimeRec) (res : AnalysisMap)
    (p : Nat × AnalysisInstance) : AnalysisMap :=
  let a := p.2
  let name := a.meta_data.experiment_name
  let res := if (List.lookup name res).isSome then res
             else res ++ [(name, zeroTable a.meta_data)]
  let t := (List.lookup name res).getD (zeroTable a.meta_data)
  let t := if p.1 = 0 then { t with time := timeAdd t.time times } else t
  let t := { t with
             data := t.data.set t.idx (buildValues npStd t.keys t.dims a),
             idx := t.idx + 1 }
  updateEntry res name t

/-- The loop of `analyse_output` over the enumerated analysis instances. -/
def analyse_output (npStd : List ℚ → ℚ) (out : JobOutput)
    (result : AnalysisMap) : AnalysisMap :=
  out.instances.enum.foldl (analyseStep npStd out.times) result

/-- The concurrency limit of `execute_networks` (lines 267-274): 1 for the
`nmpm1` hardware back-end (its driver allows a single concurrent PyNN
process), otherwise the host's CPU count.  `normSim` is the result of the
external `normalized_simulator_name`, `cpuCount` of `cpu_count()`. -/
def concurrencyFor (normSim : String) (cpuCount : Nat) : Nat :=
  if normSim = "nmpm1" then 1 else cpuCount

/-- One worker process: its spawn ordinal and its predetermined exit status. -/
abbrev Proc := Nat × Int

/-- The scheduler loop state of `execute_networks` (lines 280-300).
`spawned` and `round` are history variables used only to state properties:
`spawned` records every process ever launched, `round` counts iterations. -/
structure SchedState where
  cmds : List String
  processes : List Proc
  hadError : Bool
  nextId : Nat
  spawned : List Proc
  round : Nat
deriving DecidableEq, Repr

/-- The spawn step at the head of the loop body (lines 285-289): launch one
worker for the last queued job (`cmds.pop()`) when below the concurrency
limit, no error has been seen and work remains. -/
def spawnStep (c : Nat) (status : String → Int) (s : SchedState) : SchedState :=
  if s.processes.length < c ∧ s.hadError = false ∧ s.cmds ≠ [] then
    match s.cmds.getLast? with
    | some cmd =>
      { s with cmds := s.cmds.dropLast,
               processes := s.processes ++ [(s.nextId, status cmd)],
               nextId := s.nextId + 1,
               spawned := s.spawned ++ [(s.nextId, status cmd)] }
    | none => s
  else s

/-- The poll loop (lines 292-297) with Python's delete-during-iteration
semantics: index `i` advances every round over the live list; deleting a
finished process shifts later entries one slot left, so the element moved
into slot `i` is not polled again until the next round.  `fin p` tells
whether the process with ordinal `p` has finished. -/
def pollGo (fin : Nat → Bool) : Nat → List Proc → Bool → List Proc × Bool
  | i, ps, err =>
    if h : i < ps.length then
      let p := ps.get ⟨i, h⟩
      if fin p.1 then
        pollGo fin (i+1) (ps.eraseIdx i) (err || (p.2 != 0))
      else
        pollGo fin (i+1) ps err
    else (ps, err)
termination_by i ps _ => ps.length - i
decreasing_by
  · simp [List.length_eraseIdx, h]; omega
  · omega

/-- One iteration of the scheduler loop body: spawn (at most one worker),
then poll all in-flight workers; the sleep only passes real time.  The
history `round` counter advances. -/
def schedStep (c : Nat) (status : String → Int) (fin : Nat → Bool)
    (s : SchedState) : SchedState :=
  let s1 := spawnStep c status s
  let pr := pollGo fin 0 s1.processes s1.hadError
  { s1 with processes := pr.1, hadError := pr.2, round := s1.round + 1 }

/-- The loop condition of lines 282-283. -/
def schedGuard (s : SchedState) : Bool :=
  (!s.cmds.isEmpty || !s.processes.isEmpty)
    && !(s.processes.isEmpty && s.hadError)

/-- The scheduler loop; `oracle r p` tells whether process `p` has finished
by poll round `r`; `fuel` bounds the number of iterations (the source loop is
unbounded, so every claim is conditional on termination).  Returns
`not had_error` and the final state. -/
def runSched (c : Nat) (status : String → Int) (oracle : Nat → Nat → Bool) :
    Nat → SchedState → Option (Bool × SchedState)
  | fuel, s =>
    if schedGuard s then
      match fuel with
      | 0 => none
      | f+1 => runSched c status oracle f (schedStep c status (oracle s.round) s)
    else some (!s.hadError, s)

/-- The initial scheduler state for a list of job files. -/
def initSched (files : List String) : SchedState :=
  ⟨files, [], false, 0, [], 0⟩

/-- The multi-file branch of `execute_networks` (lines 265-305): run the
polling scheduler under the back-end-dependent concurrency limit. -/
def execute_networks_batch (files : List String) (normSim : String)
    (cpuCount : Nat) (status : String → Int) (oracle : Nat → Nat → Bool)
    (fuel : Nat) : Option (Bool × SchedState) :=
  runSched (concurrencyFor normSim cpuCount) status oracle fuel
    (initSched files)

/-- Output file name derivation of the single-file path (lines 311-314):
replace a trailing `.in.gz` by `.out.gz`, else append `.out.gz`.  File names
are character lists. -/
def outputFileFor (input : List Char) : List Char :=
  if List.isSuffixOf ".in.gz".toList input then
    input.take (input.length - 6) ++ ".out.gz".toList
  else input ++ ".out.gz".toList

/-- The final output name of the single-file path (lines 341-343): with
inline analysis the trailing `.out.gz` is replaced by `.out.mat`. -/
def finalOutputFile (input : List Char) (analyse : Bool) : List Char :=
  let o := outputFileFor input
  if analyse then o.take (o.length - 7) ++ ".out.mat".toList else o

/-- What `execute_networks` decides to do: spawn a batch of workers under a
concurrency limit, or run the single job synchronously in-process and write
the derived output file. -/
inductive ExecPlan where
  | batch (concurrency : Nat) (cmds : List (List Char))
  | single (input : List Char) (output : List Char)
deriving DecidableEq, Repr

/-- The dispatch of `execute_networks` (lines 265-314): more than one file
selects the subprocess scheduler; exactly one file is executed synchronously
(no subprocess) with the derived output name.  `none` models the
`IndexError` on an empty file list, which the CLI validation prevents. -/
def execute_networks_plan (files : List (List Char)) (normSim : String)
    (cpuCount : Nat) (analyse : Bool) : Option ExecPlan :=
  if 1 < files.length then
    some (.batch (concurrencyFor normSim cpuCount) files)
  else
    match files with
    | [f] => some (.single f (finalOutputFile f analyse))
    | _ => none

theorem NpFloat.lt_trans {a b c : NpFloat} (h1 : NpFloat.lt a b = true)
    (h2 : NpFloat.lt b c = true) : NpFloat.lt a c = true := by
  cases a with
  | inf => simp [NpFloat.lt] at h1
  | fin qa =>
    cases b with
    | inf =>
      cases c with
      | inf => rfl
      | fin qc => simp [NpFloat.lt] at h2
    | fin qb =>
      cases c with
      | inf => rfl
      | fin qc =>
        simp only [NpFloat.lt, decide_eq_true_eq] at h1 h2 ⊢
        exact h1.trans h2

theorem NpFloat.eq_of_not_lt {a b : NpFloat} (h1 : NpFloat.lt a b = false)
    (h2 : NpFloat.lt b a = false) : a = b := by
  cases a with
  | inf =>
    cases b with
    | inf => rfl
    | fin qb => simp [NpFloat.lt] at h2
  | fin qa =>
    cases b with
    | inf => simp [NpFloat.lt] at h1
    | fin qb =>
      simp only [NpFloat.lt, decide_eq_false_iff_not, not_lt] at h1 h2
      exact congrArg NpFloat.fin (le_antisymm h2 h1)

theorem NpFloat.lt_total (a b : NpFloat) :
    NpFloat.lt a b = true ∨ NpFloat.lt b a = true ∨ a = b := by
  cases a with
  | inf =>
    cases b with
    | inf => right; right; rfl
    | fin qb => right; left; rfl
  | fin qa =>
    cases b with
    | inf => left; rfl
    | fin qb =>
      rcases lt_trichotomy qa qb with h | h | h
      · left; simp [NpFloat.lt, h]
      · right; right; rw [h]
      · right; left; simp [NpFloat.lt, h]

theorem NpFloat.lt_irrefl (a : NpFloat) : NpFloat.lt a a = false := by
  cases a with
  | inf => rfl
  | fin q => simp [NpFloat.lt]

/-- Reachability of scheduler states: the reflexive closure of arbitrary
loop iterations, each with its own completion oracle. -/
inductive SchedReaches (c : Nat) (status : String → Int) :
    SchedState → SchedState → Prop where
  | refl (s : SchedState) : SchedReaches c status s s
  | step (s t : SchedState) (fin : Nat → Bool) :
      SchedReaches c status s t → SchedReaches c status s (schedStep c status fin t)

/-- The scheduler bookkeeping invariant: the launched-process history splits
into the in-flight list and the removed processes, and the error flag is
exactly "some removed process exited nonzero". -/
def SchedInv (s : SchedState) : Prop :=
  ∃ rem : List Proc, s.spawned.Perm (s.processes ++ rem) ∧
    s.hadError = rem.any (fun p => p.2 != 0)

/-- A two-varied-column result table that distinguishes the two candidate
sort key orders of the finalizer. -/
def exampleSortTable : ResultTable :=
  { keys := ["a", "b", "x"], dims := 2, simulator := "s", time := timeZero,
    data := [[.fin 1, .fin 2, .fin 10], [.fin 2, .fin 1, .fin 20]], idx := 2 }

/-- A one-valid-row table for experiment `e` with timing map (1, 2, 3, 4). -/
def exampleTableA : ResultTable :=
  { keys := ["p", "I"], dims := 1, simulator := "s", time := ⟨1, 2, 3, 4⟩,
    data := [[.fin 1, .fin 10], [.fin 0, .fin 0]], idx := 1 }

/-- A one-valid-row table for experiment `e` with timing map (5, 6, 7, 8). -/
def exampleTableB : ResultTable :=
  { keys := ["p", "I"], dims := 1, simulator := "s", time := ⟨5, 6, 7, 8⟩,
    data := [[.fin 2, .fin 20], [.fin 0, .fin 0]], idx := 1 }

/-- A full one-row table: declared size 1, cursor 1, no remaining capacity. -/
def exampleFullTable : ResultTable :=
  { keys := ["p"], dims := 1, simulator := "s", time := timeZero,
    data := [[.fin 5]], idx := 1 }

/-- A source table holding one valid row to append. -/
def exampleSrcTable : ResultTable :=
  { keys := ["p"], dims := 1, simulator := "s", time := timeZero,
    data := [[.fin 7]], idx := 1 }

/-- A source table holding two valid rows to append. -/
def exampleSrc2Table : ResultTable :=
  { keys := ["p"], dims := 1, simulator := "s", time := timeZero,
    data := [[.fin 1], [.fin 2]], idx := 2 }

/-- A degenerate analysis instance for experiment `e`: zero capacities, no
error records, only invalid latencies, zero normalizers. -/
def exampleInstance : AnalysisInstance :=
  { meta_data := { experiment_name := "e", keys := ["p"],
                   experiment_size := 2, simulator := "s" },
    resolve := fun _ => 3,
    I := 0, errs := [], I_ref := 0, errs_ref := [],
    latencies := [.inf, .inf],
    data_params := { n_samples := 0, n_bits_out := 0, n_ones_out := 0 } }

/-- A job result that demultiplexes into two instances of experiment `e`. -/
def exampleJob : JobOutput :=
  { times := ⟨10, 7, 2, 1⟩, instances := [exampleInstance, exampleInstance] }


theorem boolEqFalse {b : Bool} (h : ¬ b = true) : b = false := by
  cases b
  · rfl
  · exact absurd rfl h

theorem revLexB_succ (d : Nat) (r1 r2 : NpRow) :
    revLexB (d+1) r1 r2 =
      (if NpFloat.lt (r1.getD d (.fin 0)) (r2.getD d (.fin 0)) then true
       else if NpFloat.lt (r2.getD d (.fin 0)) (r1.getD d (.fin 0)) then false
       else revLexB d r1 r2) := rfl

theorem revLexB_total (d : Nat) (a b : NpRow) :
    revLexB d a b = true ∨ revLexB d b a = true := by
  induction d with
  | zero => left; rfl
  | succ d ih =>
    rw [revLexB_succ, revLexB_succ]
    rcases NpFloat.lt_total (a.getD d (.fin 0)) (b.getD d (.fin 0)) with h | h | h
    · left; rw [if_pos h]
    · right; rw [if_pos h]
    · have h1 : NpFloat.lt (a.getD d (.fin 0)) (b.getD d (.fin 0)) = false := by
        rw [h]; exact NpFloat.lt_irrefl _
      have h2 : NpFloat.lt (b.getD d (.fin 0)) (a.getD d (.fin 0)) = false := by
        rw [h]; exact NpFloat.lt_irrefl _
      rcases ih with h3 | h3
      · left; rw [if_neg (by rw [h1]; simp), if_neg (by rw [h2]; simp)]; exact h3
      · right; rw [if_neg (by rw [h2]; simp), if_neg (by rw [h1]; simp)]; exact h3

theorem revLexB_trans (d : Nat) {a b c : NpRow} (h1 : revLexB d a b = true)
    (h2 : revLexB d b c = true) : revLexB d a c = true := by
  induction d with
  | zero => rfl
  | succ d ih =>
    rw [revLexB_succ] at h1 h2 ⊢
    by_cases hab : NpFloat.lt (a.getD d (.fin 0)) (b.getD d (.fin 0)) = true
    · by_cases hbc : NpFloat.lt (b.getD d (.fin 0)) (c.getD d (.fin 0)) = true
      · rw [if_pos (NpFloat.lt_trans hab hbc)]
      · rw [if_neg hbc] at h2
        by_cases hcb : NpFloat.lt (c.getD d (.fin 0)) (b.getD d (.fin 0)) = true
        · rw [if_pos hcb] at h2; exact absurd h2 (by simp)
        · have hbceq := NpFloat.eq_of_not_lt
            (boolEqFalse hbc) (boolEqFalse hcb)
          rw [if_pos (show NpFloat.lt _ _ = true by rw [← hbceq]; exact hab)]
    · rw [if_neg hab] at h1
      by_cases hba : NpFloat.lt (b.getD d (.fin 0)) (a.getD d (.fin 0)) = true
      · rw [if_pos hba] at h1; exact absurd h1 (by simp)
      · rw [if_neg hba] at h1
        have habeq := NpFloat.eq_of_not_lt
          (boolEqFalse hab) (boolEqFalse hba)
        by_cases hbc : NpFloat.lt (b.getD d (.fin 0)) (c.getD d (.fin 0)) = true
        · rw [if_pos (show NpFloat.lt _ _ = true by rw [habeq]; exact hbc)]
        · rw [if_neg hbc] at h2
          by_cases hcb : NpFloat.lt (c.getD d (.fin 0)) (b.getD d (.fin 0)) = true
          · rw [if_pos hcb] at h2; exact absurd h2 (by simp)
          · rw [if_neg hcb] at h2
            rw [if_neg (show ¬ NpFloat.lt (a.getD d (.fin 0)) (c.getD d (.fin 0)) = true
                  by rw [habeq]; exact hbc),
              if_neg (show ¬ NpFloat.lt (c.getD d (.fin 0)) (a.getD d (.fin 0)) = true
                  by rw [habeq]; exact hcb)]
            exact ih h1 h2

/-- C1 (amended): for every result table with at least one varied-parameter
column, the finalizer stably sorts all matrix rows ascending and
lexicographically by the varied-parameter columns in REVERSE declared order:
numpy's `lexsort` makes the LAST key of its key sequence primary, so the LAST
varied-parameter column is the primary sort key.  Rows are permuted whole
(their metric columns stay attached), the output is pairwise ordered by
`revLexB dims`, every already-ordered sublist survives in order (stability),
and keys, dims, simulator and timing are unchanged. -/
theorem finalize_analysis_sorts_reverse_lex (t : ResultTable) (h : 0 < t.dims) :
    (finalizeTable t).data.Perm t.data ∧
    (finalizeTable t).data.Pairwise (fun r1 r2 => revLexB t.dims r1 r2 = true) ∧
    (∀ c : List NpRow, c.Pairwise (fun r1 r2 => revLexB t.dims r1 r2 = true) →
      c.Sublist t.data → c.Sublist (finalizeTable t).data) ∧
    (finalizeTable t).keys = t.keys ∧ (finalizeTable t).dims = t.dims ∧
    (finalizeTable t).simulator = t.simulator ∧
    (finalizeTable t).time = t.time := by
  letI : IsTotal NpRow (fun r1 r2 => revLexB t.dims r1 r2 = true) :=
    ⟨fun a b => revLexB_total t.dims a b⟩
  letI : IsTrans NpRow (fun r1 r2 => revLexB t.dims r1 r2 = true) :=
    ⟨fun a b c hab hbc => revLexB_trans t.dims hab hbc⟩
  have hd : (finalizeTable t).data = npLexsort t.dims t.data := by
    simp only [finalizeTable]
    rw [if_pos h]
  refine ⟨?_, ?_, ?_, rfl, rfl, rfl, rfl⟩
  · rw [hd]; exact List.perm_insertionSort _ _
  · rw [hd]; exact List.sorted_insertionSort _ _
  · intro c hc hsub
    rw [hd]
    exact List.sublist_insertionSort hc hsub

/-- C1 witness: the amended sort theorem applied to the concrete table. -/
theorem finalize_analysis_sorts_reverse_lex_witness :
    0 < exampleSortTable.dims ∧
    (finalizeTable exampleSortTable).data.Perm exampleSortTable.data :=
  ⟨by decide,
   (finalize_analysis_sorts_reverse_lex exampleSortTable (by decide)).1⟩

/-- C1 counterexample: finalizing `exampleSortTable` (varied columns `a, b`
declared in this order, rows `[1,2,10]` and `[2,1,20]`) yields the rows
ordered by column `b`; the output is NOT sorted ascending-lexicographically
with the first varied-parameter column as the primary key, contrary to the
claim. -/
theorem finalize_analysis_sort_counterexample :
    (finalizeTable exampleSortTable).data
        = [[.fin 2, .fin 1, .fin 20], [.fin 1, .fin 2, .fin 10]] ∧
    ¬ (finalizeTable exampleSortTable).data.Pairwise
        (fun r1 r2 => declLexLe exampleSortTable.dims r1 r2 = true) := by
  constructor
  · decide
  · decide

/-- C5: for more than one job file the concurrency limit chosen by
`execute_networks` is exactly 1 when the normalized simulator name is the
exclusive hardware back-end `nmpm1`, regardless of the host CPU count, and
otherwise equals the number of available processing units. -/
theorem execute_networks_concurrency (files : List (List Char))
    (normSim : String) (cpu : Nat) (analyse : Bool) (h : 1 < files.length) :
    execute_networks_plan files normSim cpu analyse
        = some (.batch (concurrencyFor normSim cpu) files) ∧
    (normSim = "nmpm1" → concurrencyFor normSim cpu = 1) ∧
    (normSim ≠ "nmpm1" → concurrencyFor normSim cpu = cpu) := by
  refine ⟨?_, ?_, ?_⟩
  · simp only [execute_networks_plan]
    rw [if_pos h]
  · intro hn; simp only [concurrencyFor]; rw [if_pos hn]
  · intro hn; simp only [concurrencyFor]; rw [if_neg hn]

/-- C5 witness: the concurrency theorem applied to two files on the `nmpm1`
back-end with 4 CPUs. -/
theorem execute_networks_concurrency_witness :
    1 < ([['a'], ['b']] : List (List Char)).length ∧
    ("nmpm1" = "nmpm1" → concurrencyFor "nmpm1" 4 = 1) :=
  ⟨by decide,
   (execute_networks_concurrency [['a'], ['b']] "nmpm1" 4 false (by decide)).2.1⟩

/-- C10: with exactly one input file the plan is synchronous in-process
execution (no subprocess), and the output file name is derived
deterministically: a trailing `.in.gz` is replaced by `.out.gz`, any other
input has `.out.gz` appended, and with inline analysis the resulting
`.out.gz` suffix is replaced by `.out.mat`. -/
theorem execute_networks_single_file (f base : List Char)
    (hb : ¬ ".in.gz".toList <:+ f) :
    (∀ (normSim : String) (cpu : Nat) (analyse : Bool),
      execute_networks_plan [f] normSim cpu analyse
        = some (.single f (finalOutputFile f analyse))) ∧
    outputFileFor (base ++ ".in.gz".toList) = base ++ ".out.gz".toList ∧
    outputFileFor f = f ++ ".out.gz".toList ∧
    finalOutputFile (base ++ ".in.gz".toList) true = base ++ ".out.mat".toList ∧
    finalOutputFile f true = f ++ ".out.mat".toList ∧
    finalOutputFile (base ++ ".in.gz".toList) false = base ++ ".out.gz".toList ∧
    finalOutputFile f false = f ++ ".out.gz".toList := by
  have hsfx : outputFileFor (base ++ ".in.gz".toList) = base ++ ".out.gz".toList := by
    simp only [outputFileFor]
    rw [if_pos (by rw [List.isSuffixOf_iff_suffix]; exact List.suffix_append _ _)]
    have h6 : (".in.gz".toList).length = 6 := rfl
    rw [List.length_append, h6, Nat.add_sub_cancel, List.take_left]
  have hnos : outputFileFor f = f ++ ".out.gz".toList := by
    simp only [outputFileFor]
    rw [if_neg (by rw [List.isSuffixOf_iff_suffix]; exact hb)]
  have hdrop : ∀ g : List Char,
      (g ++ ".out.gz".toList).take ((g ++ ".out.gz".toList).length - 7)
        = g := by
    intro g
    have h7 : (".out.gz".toList).length = 7 := rfl
    rw [List.length_append, h7, Nat.add_sub_cancel, List.take_left]
  refine ⟨?_, hsfx, hnos, ?_, ?_, ?_, ?_⟩
  · intro normSim cpu analyse
    rfl
  · simp only [finalOutputFile, hsfx]
    rw [if_pos trivial, hdrop base]
  · simp only [finalOutputFile, hnos]
    rw [if_pos trivial, hdrop f]
  · simp only [finalOutputFile, hsfx]
    rw [if_neg Bool.false_ne_true]
  · simp only [finalOutputFile, hnos]
    rw [if_neg Bool.false_ne_true]

/-- C10 witness: the single-file naming theorem applied to the input `net`. -/
theorem execute_networks_single_file_witness :
    ¬ ".in.gz".toList <:+ "net".toList ∧
    outputFileFor "net".toList = "net".toList ++ ".out.gz".toList :=
  ⟨by decide,
   (execute_networks_single_file "net".toList "x".toList (by decide)).2.2.1⟩

theorem lookup_append_str {β : Type} (x y : List (String × β)) (n : String) :
    List.lookup n (x ++ y)
      = (List.lookup n x).orElse (fun _ => List.lookup n y) := by
  induction x with
  | nil => rfl
  | cons e rest ih =>
    obtain ⟨k, b⟩ := e
    rw [List.cons_append, List.lookup_cons, List.lookup_cons]
    cases h : n == k
    · simpa using ih
    · rfl

theorem lookup_map_str {β γ : Type} (f : β → γ) (m : List (String × β))
    (n : String) :
    List.lookup n (m.map (fun e => (e.1, f e.2))) = (List.lookup n m).map f := by
  induction m with
  | nil => rfl
  | cons e rest ih =>
    obtain ⟨k, b⟩ := e
    simp only [List.map_cons, List.lookup_cons]
    cases h : n == k
    · simpa using ih
    · rfl

theorem lookup_eq_none_str {β : Type} (m : List (String × β)) (n : String)
    (h : ∀ e ∈ m, e.1 ≠ n) : List.lookup n m = none := by
  induction m with
  | nil => rfl
  | cons e rest ih =>
    obtain ⟨k, b⟩ := e
    rw [List.lookup_cons]
    have hk : (n == k) = false := by
      have := h (k, b) (List.mem_cons_self _ _)
      exact beq_eq_false_iff_ne.mpr (fun hn => this hn.symm)
    rw [hk]
    exact ih (fun e he => h e (List.mem_cons_of_mem _ he))

theorem lookup_mem_names {β : Type} {m : List (String × β)} {n : String}
    {t : β} (h : List.lookup n m = some t) : n ∈ m.map Prod.fst := by
  induction m with
  | nil => simp at h
  | cons e rest ih =>
    obtain ⟨k, b⟩ := e
    rw [List.lookup_cons] at h
    cases hk : n == k
    · rw [hk] at h
      exact List.mem_cons_of_mem _ (ih h)
    · have : n = k := eq_of_beq hk
      simp [this]

theorem lookup_updateEntry_ne (m : AnalysisMap) (k : String) (t : ResultTable)
    (n : String) (hne : k ≠ n) :
    List.lookup n (updateEntry m k t) = List.lookup n m := by
  induction m with
  | nil => rfl
  | cons e rest ih =>
    obtain ⟨k', b⟩ := e
    simp only [updateEntry, List.map_cons]
    by_cases hk : k' = k
    · subst hk
      rw [if_pos rfl, List.lookup_cons, List.lookup_cons]
      have hnk : (n == k') = false := beq_eq_false_iff_ne.mpr (fun hn => hne hn.symm)
      rw [hnk]
      simpa [updateEntry] using ih
    · rw [if_neg hk, List.lookup_cons, List.lookup_cons]
      cases h : n == k'
      · simpa [updateEntry] using ih
      · rfl

theorem append_analysis_cons (a : AnalysisMap) (e : String × ResultTable)
    (rest : AnalysisMap) :
    append_analysis a (e :: rest)
      = (if e.1.startsWith "__" then pure a
         else match List.lookup e.1 a with
           | none => pure (a ++ [e])
           | some t0 => do
             let t ← appendTable t0 e.2
             pure (updateEntry a e.1 t)) >>= fun acc =>
            append_analysis acc rest := rfl

theorem append_analysis_disjoint (b a : AnalysisMap)
    (hno : ∀ e ∈ b, e.1.startsWith "__" = false)
    (hnone : ∀ e ∈ b, List.lookup e.1 a = none)
    (hnd : (b.map Prod.fst).Nodup) :
    append_analysis a b = .ok (a ++ b) := by
  induction b generalizing a with
  | nil => rw [List.append_nil]; rfl
  | cons e rest ih =>
    rw [append_analysis_cons]
    rw [if_neg (by rw [hno e (List.mem_cons_self _ _)]; simp)]
    rw [hnone e (List.mem_cons_self _ _)]
    have hstep : (pure (a ++ [e]) : Except Unit AnalysisMap) >>= (fun acc =>
        append_analysis acc rest) = append_analysis (a ++ [e]) rest := rfl
    rw [hstep]
    rw [List.map_cons] at hnd
    obtain ⟨hnotin, hnd'⟩ := List.nodup_cons.mp hnd
    have hnone' : ∀ e' ∈ rest, List.lookup e'.1 (a ++ [e]) = none := by
      intro e' he'
      rw [lookup_append_str]
      rw [hnone e' (List.mem_cons_of_mem _ he')]
      have hne : e.1 ≠ e'.1 := by
        intro hh
        exact hnotin (hh ▸ List.mem_map_of_mem Prod.fst he')
      have hl1 : List.lookup e'.1 [e] = none :=
        lookup_eq_none_str [e] e'.1 (by
          intro x hx
          rcases List.mem_singleton.mp hx with rfl
          exact hne)
      rw [hl1]
      rfl
    rw [ih (a ++ [e]) (fun e' he' => hno e' (List.mem_cons_of_mem _ he'))
      hnone' hnd']
    rw [List.append_assoc]
    rfl

theorem except_pure_bind {α β : Type} (x : α) (f : α → Except Unit β) :
    (pure x : Except Unit α) >>= f = f x := rfl

theorem except_error_bind {α β : Type} (f : α → Except Unit β) :
    (Except.error () : Except Unit α) >>= f = .error () := rfl

theorem append_analysis_error (b : AnalysisMap) (a : AnalysisMap) (n : String)
    (t1 t2 : ResultTable) (hmem : (n, t2) ∈ b)
    (hnd : (b.map Prod.fst).Nodup) (hno : n.startsWith "__" = false)
    (hlook : List.lookup n a = some t1)
    (herr : appendTable t1 t2 = .error ()) :
    append_analysis a b = .error () := by
  induction b generalizing a with
  | nil => simp at hmem
  | cons e rest ih =>
    rw [List.map_cons] at hnd
    obtain ⟨hnotin, hnd'⟩ := List.nodup_cons.mp hnd
    rcases List.mem_cons.mp hmem with heq | hmem'
    · cases heq.symm
      rw [append_analysis_cons]
      rw [if_neg (by rw [hno]; simp)]
      rw [hlook]
      show (appendTable t1 t2 >>= fun t =>
          (pure (updateEntry a n t) : Except Unit AnalysisMap)) >>=
          (fun acc => append_analysis acc rest) = .error ()
      rw [herr]
      rfl
    · have hne : e.1 ≠ n := by
        intro hh
        exact hnotin (hh ▸ List.mem_map_of_mem Prod.fst hmem')
      rw [append_analysis_cons]
      by_cases hs : e.1.startsWith "__"
      · rw [if_pos hs, except_pure_bind]
        exact ih a hmem' hnd' hlook
      · rw [if_neg hs]
        cases hl : List.lookup e.1 a with
        | none =>
          show append_analysis (a ++ [e]) rest = .error ()
          have hlook' : List.lookup n (a ++ [e]) = some t1 := by
            rw [lookup_append_str, hlook]
            rfl
          exact ih (a ++ [e]) hmem' hnd' hlook'
        | some t0 =>
          show (appendTable t0 e.2 >>= fun t =>
              (pure (updateEntry a e.1 t) : Except Unit AnalysisMap)) >>=
              (fun acc => append_analysis acc rest) = .error ()
          cases hap : appendTable t0 e.2 with
          | error u =>
            cases u
            rfl
          | ok t =>
            show append_analysis (updateEntry a e.1 t) rest = .error ()
            have hlook' : List.lookup n (updateEntry a e.1 t) = some t1 := by
              rw [lookup_updateEntry_ne a e.1 t n hne, hlook]
            exact ih (updateEntry a e.1 t) hmem' hnd' hlook'

theorem sliceAssign_none (d1 : List NpRow) (i : Nat) (x y : NpRow)
    (rest : List NpRow)
    (h : min d1.length (i + (x :: y :: rest).length) - min d1.length i
      ≠ (x :: y :: rest).length) :
    sliceAssign d1 i (x :: y :: rest) = none := by
  simp only [sliceAssign]
  rw [if_neg (fun hh => h hh.symm)]

/-- C3 (amended): when the destination's remaining capacity is insufficient
(`declared_size - idx < idx_from`), a merge of a shared name fails with the
fatal `ValueError` of the slice assignment for every `idx_from ≥ 2`, without
advancing any cursor; but in the edge case `idx_from = 1` (with the target
slice empty) numpy BROADCASTS the single source row into the empty slice, so
the operation completes silently, the source row is dropped, and the cursor
advances past the declared size. -/
theorem append_analysis_capacity (b a : AnalysisMap) (n : String)
    (t1 t2 : ResultTable) (hmem : (n, t2) ∈ b)
    (hnd : (b.map Prod.fst).Nodup) (hno : n.startsWith "__" = false)
    (hlook : List.lookup n a = some t1)
    (hidx : t1.idx ≤ t1.data.length) (hsrc : t2.idx ≤ t2.data.length)
    (hcap : t1.data.length - t1.idx < t2.idx) :
    (2 ≤ t2.idx → append_analysis a b = .error ()) ∧
    (t2.idx = 1 → appendTable t1 t2
        = .ok { t1 with data := t1.data, idx := t1.idx + 1 }) := by
  have hrows : (t2.data.take t2.idx).length = t2.idx := by
    rw [List.length_take]
    omega
  constructor
  · intro h2
    apply append_analysis_error b a n t1 t2 hmem hnd hno hlook
    have hsl : sliceAssign t1.data t1.idx (t2.data.take t2.idx) = none := by
      obtain ⟨x, y, rest, hxy⟩ :
          ∃ x y rest, t2.data.take t2.idx = x :: y :: rest := by
        cases hr : t2.data.take t2.idx with
        | nil =>
          rw [hr] at hrows
          simp at hrows
          omega
        | cons x l =>
          cases l with
          | nil =>
            rw [hr] at hrows
            simp at hrows
            omega
          | cons y rest => exact ⟨x, y, rest, rfl⟩
      rw [hxy]
      apply sliceAssign_none
      rw [← hxy, hrows]
      omega
    unfold appendTable
    rw [hsl]
  · intro h1
    have hone : ∃ r, t2.data.take t2.idx = [r] := by
      cases hr : t2.data.take t2.idx with
      | nil =>
        rw [hr] at hrows
        simp at hrows
        omega
      | cons x l =>
        cases l with
        | nil => exact ⟨x, rfl⟩
        | cons y rest =>
          rw [hr] at hrows
          simp at hrows
          omega
    obtain ⟨r, hr⟩ := hone
    have hlen1 : t1.data.length = t1.idx := by omega
    unfold appendTable
    have hsl : sliceAssign t1.data t1.idx (t2.data.take t2.idx)
        = some t1.data := by
      rw [hr]
      simp only [sliceAssign]
      rw [if_neg (by simp; omega)]
      have hlo : min t1.data.length t1.idx = t1.data.length := by omega
      have hhi : min t1.data.length (t1.idx + [r].length) = t1.data.length := by
        simp
        omega
      rw [hlo, hhi]
      simp
    rw [hsl, h1]

/-- C3 witness: the capacity theorem applied to a full one-row table and a
two-row source; the merge fails with the fatal error. -/
theorem append_analysis_capacity_witness :
    exampleFullTable.data.length - exampleFullTable.idx < exampleSrc2Table.idx ∧
    append_analysis [("e", exampleFullTable)] [("e", exampleSrc2Table)]
      = .error () :=
  ⟨by decide,
   (append_analysis_capacity [("e", exampleSrc2Table)]
      [("e", exampleFullTable)] "e" exampleFullTable exampleSrc2Table
      (by decide) (by decide) (by decide) (by decide) (by decide) (by decide)
      (by decide)).1 (by decide)⟩

/-- C3 counterexample: the claim is false as stated — merging a one-valid-row
source (`idx_from = 1`) into a table with zero remaining capacity does NOT
fail: numpy broadcasts the single-row block into the empty target slice, the
merge completes, the source row `[7]` is silently dropped, and the cursor
advances to 2, past the declared size 1. -/
theorem append_analysis_capacity_counterexample :
    append_analysis [("e", exampleFullTable)] [("e", exampleSrcTable)]
      = .ok [("e", { exampleFullTable with data := [[.fin 5]], idx := 2 })] :=
  rfl

/-- C2 (amended): merging result mappings with disjoint experiment-name sets
succeeds in either order and, after finalization, yields identical final
tables for every name; but for a name present in both mappings the merged
table keeps the FIRST operand's timing map (`append_analysis` copies rows and
advances the cursor yet never merges the `time` field), so merge order is
observable in the final timing maps. -/
theorem append_analysis_disjoint_comm (a b : AnalysisMap)
    (hdisj : ∀ n ∈ a.map Prod.fst, n ∉ b.map Prod.fst)
    (hna : ∀ e ∈ a, e.1.startsWith "__" = false)
    (hnb : ∀ e ∈ b, e.1.startsWith "__" = false)
    (hnda : (a.map Prod.fst).Nodup) (hndb : (b.map Prod.fst).Nodup) :
    append_analysis a b = .ok (a ++ b) ∧
    append_analysis b a = .ok (b ++ a) ∧
    ∀ n, List.lookup n (finalize_analysis (a ++ b))
        = List.lookup n (finalize_analysis (b ++ a)) := by
  have hnone1 : ∀ e ∈ b, List.lookup e.1 a = none := by
    intro e he
    apply lookup_eq_none_str
    intro e' he' hfst
    exact hdisj e'.1 (List.mem_map_of_mem Prod.fst he')
      (hfst ▸ List.mem_map_of_mem Prod.fst he)
  have hnone2 : ∀ e ∈ a, List.lookup e.1 b = none := by
    intro e he
    apply lookup_eq_none_str
    intro e' he' hfst
    exact hdisj e.1 (List.mem_map_of_mem Prod.fst he)
      (hfst ▸ List.mem_map_of_mem Prod.fst he')
  refine ⟨append_analysis_disjoint b a hnb hnone1 hndb,
    append_analysis_disjoint a b hna hnone2 hnda, ?_⟩
  intro n
  show List.lookup n ((a ++ b).map (fun e => (e.1, finalizeTable e.2)))
      = List.lookup n ((b ++ a).map (fun e => (e.1, finalizeTable e.2)))
  rw [lookup_map_str, lookup_map_str, lookup_append_str, lookup_append_str]
  cases ha : List.lookup n a with
  | some t =>
    have hbn : List.lookup n b = none := by
      apply lookup_eq_none_str
      intro e' he' hfst
      exact hdisj n (lookup_mem_names ha)
        (hfst ▸ List.mem_map_of_mem Prod.fst he')
    rw [hbn]
    rfl
  | none =>
    cases hb : List.lookup n b with
    | some t => rfl
    | none => rfl

/-- C2 witness: disjoint-name merge commutes; applied to singleton mappings
for the distinct names `e` and `f`. -/
theorem append_analysis_disjoint_comm_witness :
    (∀ n ∈ ([("e", exampleTableA)] : AnalysisMap).map Prod.fst,
      n ∉ ([("f", exampleTableB)] : AnalysisMap).map Prod.fst) ∧
    append_analysis [("e", exampleTableA)] [("f", exampleTableB)]
      = .ok [("e", exampleTableA), ("f", exampleTableB)] :=
  ⟨by decide,
   (append_analysis_disjoint_comm [("e", exampleTableA)] [("f", exampleTableB)]
      (by decide) (by decide) (by decide) (by decide) (by decide)).1⟩

/-- C2 counterexample: two mappings for the same experiment name `e` with
identical column keys but different timing maps.  Both merge orders succeed,
yet the finalized tables differ: the timing map of the first operand wins
because `append_analysis` never merges the `time` field, so the merge is not
order-independent. -/
theorem append_analysis_order_counterexample :
    (append_analysis [("e", exampleTableA)] [("e", exampleTableB)]).toOption.isSome ∧
    (append_analysis [("e", exampleTableB)] [("e", exampleTableA)]).toOption.isSome ∧
    (append_analysis [("e", exampleTableA)] [("e", exampleTableB)]).toOption.map
        (fun m => List.lookup "e" (finalize_analysis m))
      ≠ (append_analysis [("e", exampleTableB)] [("e", exampleTableA)]).toOption.map
        (fun m => List.lookup "e" (finalize_analysis m)) := by
  refine ⟨by decide, by decide, by decide⟩

theorem foldl_set_length (l : List (Nat × String)) (f : Nat × String → NpFloat)
    (v : NpRow) :
    (l.foldl (fun v p => v.set p.1 (f p)) v).length = v.length := by
  induction l generalizing v with
  | nil => rfl
  | cons p rest ih => rw [List.foldl_cons, ih, List.length_set]

/-- C8: for every analysis instance processed by `analyse_output` the metric
edge cases produce defined numeric values and never exceptions (the metric
row is a total function of the instance): `I_ref = 0` makes the normalized
capacity ratio exactly 0; a zero false-positive normalizer makes `fp_n = 0`
and `fp_ref_n = 0`; a zero false-negative normalizer makes `fn_n = 0`; zero
finite latency samples make `lat_avg = +inf`, `lat_std = 0` and `n_lat_inv`
equal to the total latency count. -/
theorem analyse_output_metric_edge_cases (npStd : List ℚ → ℚ)
    (keys : List String) (offs : Nat) (a : AnalysisInstance)
    (hlen : offs + 12 ≤ keys.length) :
    (a.I_ref = 0 →
      (buildValues npStd keys offs a)[offs + 1]? = some (.fin 0)) ∧
    (normFp a = 0 →
      (buildValues npStd keys offs a)[offs + 4]? = some (.fin 0) ∧
      (buildValues npStd keys offs a)[offs + 6]? = some (.fin 0)) ∧
    (normFn a = 0 →
      (buildValues npStd keys offs a)[offs + 8]? = some (.fin 0)) ∧
    (latValid a.latencies = [] →
      (buildValues npStd keys offs a)[offs + 9]? = some .inf ∧
      (buildValues npStd keys offs a)[offs + 10]? = some (.fin 0) ∧
      (buildValues npStd keys offs a)[offs + 11]?
        = some (.fin (a.latencies.length : ℚ))) := by
  refine ⟨?_, ?_, ?_, ?_⟩
  · intro h
    simp only [buildValues]
    rw [List.getElem?_set_ne (by omega), List.getElem?_set_ne (by omega),
      List.getElem?_set_ne (by omega), List.getElem?_set_ne (by omega),
      List.getElem?_set_ne (by omega), List.getElem?_set_ne (by omega),
      List.getElem?_set_ne (by omega), List.getElem?_set_ne (by omega),
      List.getElem?_set_ne (by omega), List.getElem?_set_ne (by omega)]
    rw [List.getElem?_set_self (by simp [foldl_set_length]; omega)]
    simp [h]
  · intro h
    constructor
    · simp only [buildValues]
      rw [List.getElem?_set_ne (by omega), List.getElem?_set_ne (by omega),
        List.getElem?_set_ne (by omega), List.getElem?_set_ne (by omega),
        List.getElem?_set_ne (by omega), List.getElem?_set_ne (by omega),
        List.getElem?_set_ne (by omega)]
      rw [List.getElem?_set_self (by simp [foldl_set_length]; omega)]
      simp [h]
    · simp only [buildValues]
      rw [List.getElem?_set_ne (by omega), List.getElem?_set_ne (by omega),
        List.getElem?_set_ne (by omega), List.getElem?_set_ne (by omega),
        List.getElem?_set_ne (by omega)]
      rw [List.getElem?_set_self (by simp [foldl_set_length]; omega)]
      simp [h]
  · intro h
    simp only [buildValues]
    rw [List.getElem?_set_ne (by omega), List.getElem?_set_ne (by omega),
      List.getElem?_set_ne (by omega)]
    rw [List.getElem?_set_self (by simp [foldl_set_length]; omega)]
    simp [h]
  · intro h
    refine ⟨?_, ?_, ?_⟩
    · simp only [buildValues]
      rw [List.getElem?_set_ne (by omega), List.getElem?_set_ne (by omega)]
      rw [List.getElem?_set_self (by simp [foldl_set_length]; omega)]
      simp [h]
    · simp only [buildValues]
      rw [List.getElem?_set_ne (by omega)]
      rw [List.getElem?_set_self (by simp [foldl_set_length]; omega)]
      simp [h]
    · simp only [buildValues]
      rw [List.getElem?_set_self (by simp [foldl_set_length]; omega)]
      simp [h]

/-- C8 witness: the edge-case theorem applied to the degenerate instance
(`I_ref = 0`, table keys `p` plus the 12 metric keys, offset 1). -/
theorem analyse_output_metric_edge_cases_witness :
    exampleInstance.I_ref = 0 ∧
    (buildValues (fun _ => 0) (["p"] ++ metricKeys) 1 exampleInstance)[1 + 1]?
      = some (.fin 0) :=
  ⟨rfl,
   (analyse_output_metric_edge_cases (fun _ => 0) (["p"] ++ metricKeys) 1
      exampleInstance (by decide)).1 rfl⟩

theorem lookup_singleton_self {β : Type} (n : String) (t : β) :
    List.lookup n [(n, t)] = some t := by
  rw [List.lookup_cons, beq_self_eq_true]

theorem lookup_updateEntry_self (m : AnalysisMap) (n : String) (t : ResultTable)
    (h : (List.lookup n m).isSome) :
    List.lookup n (updateEntry m n t) = some t := by
  induction m with
  | nil => simp at h
  | cons e rest ih =>
    obtain ⟨k, b⟩ := e
    simp only [updateEntry, List.map_cons]
    by_cases hk : k = n
    · subst hk
      rw [if_pos rfl]
      rw [List.lookup_cons, beq_self_eq_true]
    · rw [if_neg hk]
      rw [List.lookup_cons] at h ⊢
      have hnk : (n == k) = false :=
        beq_eq_false_iff_ne.mpr (fun hn => hk hn.symm)
      rw [hnk] at h ⊢
      exact ih h

theorem le_fst_of_mem_enumFrom {α : Type} {l : List α} {n : Nat}
    {p : Nat × α} (h : p ∈ l.enumFrom n) : n ≤ p.1 := by
  induction l generalizing n with
  | nil => simp at h
  | cons x xs ih =>
    rw [List.enumFrom_cons] at h
    rcases List.mem_cons.mp h with heq | h
    · rw [heq]
    · exact Nat.le_of_succ_le (ih h)

theorem analyseStep_time_of_ne_zero (npStd : List ℚ → ℚ) (tm : TimeRec)
    (res : AnalysisMap) (p : Nat × AnalysisInstance) (n : String)
    (hp : p.1 ≠ 0) (hsome : (List.lookup n res).isSome) :
    (List.lookup n (analyseStep npStd tm res p)).map (·.time)
      = (List.lookup n res).map (·.time) ∧
    (List.lookup n (analyseStep npStd tm res p)).isSome := by
  obtain ⟨t0, ht0⟩ := Option.isSome_iff_exists.mp hsome
  simp only [analyseStep]
  rw [if_neg hp]
  by_cases hn : p.2.meta_data.experiment_name = n
  · rw [hn]
    rw [if_pos hsome, ht0]
    simp only [Option.getD_some]
    rw [lookup_updateEntry_self _ _ _ hsome]
    simp [ht0]
  · by_cases hres : (List.lookup p.2.meta_data.experiment_name res).isSome
    · rw [if_pos hres]
      rw [lookup_updateEntry_ne _ _ _ _ hn]
      exact ⟨rfl, hsome⟩
    · rw [if_neg hres]
      have hl : List.lookup n
          (res ++ [(p.2.meta_data.experiment_name, zeroTable p.2.meta_data)])
          = List.lookup n res := by
        rw [lookup_append_str, ht0]
        rfl
      rw [lookup_updateEntry_ne _ _ _ _ hn, hl]
      exact ⟨rfl, hsome⟩

theorem analyse_fold_time (npStd : List ℚ → ℚ) (tm : TimeRec)
    (l : List (Nat × AnalysisInstance)) (res : AnalysisMap) (n : String)
    (hl : ∀ p ∈ l, p.1 ≠ 0) (hsome : (List.lookup n res).isSome) :
    (List.lookup n (l.foldl (analyseStep npStd tm) res)).map (·.time)
      = (List.lookup n res).map (·.time) ∧
    (List.lookup n (l.foldl (analyseStep npStd tm) res)).isSome := by
  induction l generalizing res with
  | nil => exact ⟨rfl, hsome⟩
  | cons p rest ih =>
    rw [List.foldl_cons]
    obtain ⟨he, hs⟩ := analyseStep_time_of_ne_zero npStd tm res p n
      (hl p (List.mem_cons_self _ _)) hsome
    obtain ⟨he2, hs2⟩ := ih (analyseStep npStd tm res p)
      (fun q hq => hl q (List.mem_cons_of_mem _ hq)) hs
    exact ⟨he2.trans he, hs2⟩

theorem analyseStep_time_zero (npStd : List ℚ → ℚ) (tm : TimeRec)
    (res : AnalysisMap) (a : AnalysisInstance) (n : String)
    (hn : a.meta_data.experiment_name = n) :
    (List.lookup n (analyseStep npStd tm res (0, a))).map (·.time)
      = some (timeAdd (((List.lookup n res).map (·.time)).getD timeZero) tm) ∧
    (List.lookup n (analyseStep npStd tm res (0, a))).isSome := by
  simp only [analyseStep]
  simp only [if_true]
  rw [hn]
  cases hres : List.lookup n res with
  | some t0 =>
    rw [if_pos (by rfl), hres]
    simp only [Option.getD_some]
    rw [lookup_updateEntry_self _ _ _ (by rw [hres]; rfl)]
    simp
  | none =>
    rw [if_neg (by simp)]
    have hl1 : List.lookup n (res ++ [(n, zeroTable a.meta_data)])
        = some (zeroTable a.meta_data) := by
      rw [lookup_append_str, hres, lookup_singleton_self]
      rfl
    rw [hl1]
    simp only [Option.getD_some]
    rw [lookup_updateEntry_self _ _ _ (by rw [hl1]; rfl)]
    simp [zeroTable]

/-- C9: one call of `analyse_output` on a job whose demultiplexing yields
`k > 1` analysis instances, all for the same experiment, adds the job's
timing measurements (total, sim, initialize, finalize) into that experiment's
accumulator exactly once: the resulting accumulator equals the previous value
(zero for a fresh table) plus the per-job timing, not `k` times it. -/
theorem analyse_output_time_once (npStd : List ℚ → ℚ) (out : JobOutput)
    (result : AnalysisMap) (n : String)
    (hk : 1 < out.instances.length)
    (hname : ∀ a ∈ out.instances, a.meta_data.experiment_name = n) :
    (List.lookup n (analyse_output npStd out result)).map (·.time)
      = some (timeAdd (((List.lookup n result).map (·.time)).getD timeZero)
          out.times) := by
  obtain ⟨a0, rest, hcons⟩ : ∃ a0 rest, out.instances = a0 :: rest := by
    cases h : out.instances with
    | nil =>
      rw [h] at hk
      simp at hk
    | cons x l => exact ⟨x, l, rfl⟩
  simp only [analyse_output]
  rw [hcons, List.enum_cons, List.foldl_cons]
  have h0 := analyseStep_time_zero npStd out.times result a0 n
    (hname a0 (hcons ▸ List.mem_cons_self _ _))
  have hrest := analyse_fold_time npStd out.times (rest.enumFrom 1)
    (analyseStep npStd out.times result (0, a0)) n
    (fun p hp => by
      have := le_fst_of_mem_enumFrom hp
      omega) h0.2
  rw [hrest.1, h0.1]

/-- C9 witness: the timing theorem applied to a job with two instances of
experiment `e` and a fresh result mapping. -/
theorem analyse_output_time_once_witness :
    1 < exampleJob.instances.length ∧
    (List.lookup "e" (analyse_output (fun _ => 0) exampleJob [])).map (·.time)
      = some (timeAdd (((List.lookup "e" ([] : AnalysisMap)).map
          (·.time)).getD timeZero) exampleJob.times) :=
  ⟨by decide,
   analyse_output_time_once (fun _ => 0) exampleJob [] "e" (by decide)
     (by
       intro a ha
       rcases List.mem_cons.mp ha with rfl | ha2
       · rfl
       · rcases List.mem_singleton.mp ha2 with rfl
         rfl)⟩

theorem perm_get_cons_eraseIdx (l : List Proc) (i : Nat) (h : i < l.length) :
    l.Perm (l.get ⟨i, h⟩ :: l.eraseIdx i) := by
  conv_lhs => rw [← List.take_append_drop i l, List.drop_eq_getElem_cons h]
  rw [List.eraseIdx_eq_take_drop_succ]
  exact List.perm_middle

theorem pollGo_base (fin : Nat → Bool) (i : Nat) (ps : List Proc) (err : Bool)
    (h : ¬ i < ps.length) : pollGo fin i ps err = (ps, err) := by
  rw [pollGo, dif_neg h]

theorem pollGo_step_fin (fin : Nat → Bool) (i : Nat) (ps : List Proc)
    (err : Bool) (h : i < ps.length) (hf : fin (ps.get ⟨i, h⟩).1 = true) :
    pollGo fin i ps err
      = pollGo fin (i+1) (ps.eraseIdx i) (err || ((ps.get ⟨i, h⟩).2 != 0)) := by
  rw [pollGo, dif_pos h]
  simp only [hf, if_true]

theorem pollGo_step_notfin (fin : Nat → Bool) (i : Nat) (ps : List Proc)
    (err : Bool) (h : i < ps.length) (hf : fin (ps.get ⟨i, h⟩).1 = false) :
    pollGo fin i ps err = pollGo fin (i+1) ps err := by
  rw [pollGo, dif_pos h]
  simp only [hf, Bool.false_eq_true, if_false]

theorem pollGo_spec (fin : Nat → Bool) (i : Nat) (ps : List Proc)
    (err : Bool) :
    ∃ rem : List Proc,
      ps.Perm ((pollGo fin i ps err).1 ++ rem) ∧
      (pollGo fin i ps err).2 = (err || rem.any (fun p => p.2 != 0)) ∧
      ∀ p ∈ rem, fin p.1 = true := by
  induction i, ps, err using pollGo.induct fin with
  | case1 i ps err h p hfin ih =>
    obtain ⟨rem, hperm, herr, hrem⟩ := ih
    rw [pollGo_step_fin fin i ps err h hfin]
    refine ⟨p :: rem, ?_, ?_, ?_⟩
    · exact ((perm_get_cons_eraseIdx ps i h).trans (hperm.cons _)).trans
        List.perm_middle.symm
    · show (pollGo fin (i+1) (ps.eraseIdx i) (err || (p.2 != 0))).2
        = (err || ((p :: rem).any (fun q => q.2 != 0)))
      rw [herr, List.any_cons, Bool.or_assoc]
    · intro q hq
      rcases List.mem_cons.mp hq with rfl | hq2
      · exact hfin
      · exact hrem q hq2
  | case2 i ps err h p hfin ih =>
    obtain ⟨rem, hperm, herr, hrem⟩ := ih
    rw [pollGo_step_notfin fin i ps err h (boolEqFalse hfin)]
    exact ⟨rem, hperm, herr, hrem⟩
  | case3 i ps err h =>
    rw [pollGo_base fin i ps err h]
    refine ⟨[], ?_, ?_, ?_⟩
    · rw [List.append_nil]
    · simp
    · simp

theorem pollGo_mem_of_not_fin (fin : Nat → Bool) (i : Nat) (ps : List Proc)
    (err : Bool) (q : Proc) (hf : fin q.1 = false) (hq : q ∈ ps) :
    q ∈ (pollGo fin i ps err).1 := by
  induction i, ps, err using pollGo.induct fin with
  | case1 i ps err h p hfin ih =>
    rw [pollGo_step_fin fin i ps err h hfin]
    apply ih
    have hne : q ≠ ps.get ⟨i, h⟩ := by
      intro hqe
      rw [hqe, hfin] at hf
      simp at hf
    have hmem := (perm_get_cons_eraseIdx ps i h).mem_iff.mp hq
    rcases List.mem_cons.mp hmem with h1 | h2
    · exact absurd h1 hne
    · exact h2
  | case2 i ps err h p hfin ih =>
    rw [pollGo_step_notfin fin i ps err h (boolEqFalse hfin)]
    exact ih hq
  | case3 i ps err h =>
    rw [pollGo_base fin i ps err h]
    exact hq

theorem spawnStep_inv (c : Nat) (status : String → Int) (s : SchedState)
    (h : SchedInv s) : SchedInv (spawnStep c status s) := by
  obtain ⟨rem, hperm, herr⟩ := h
  simp only [spawnStep]
  by_cases hc : s.processes.length < c ∧ s.hadError = false ∧ s.cmds ≠ []
  · rw [if_pos hc]
    cases hl : s.cmds.getLast? with
    | none => exact ⟨rem, hperm, herr⟩
    | some cmd =>
      refine ⟨rem, ?_, herr⟩
      show (s.spawned ++ [(s.nextId, status cmd)]).Perm
        ((s.processes ++ [(s.nextId, status cmd)]) ++ rem)
      have h1 : (s.spawned ++ [(s.nextId, status cmd)]).Perm
          (s.processes ++ (rem ++ [(s.nextId, status cmd)])) := by
        rw [← List.append_assoc]
        exact hperm.append_right _
      have h3 := h1.trans
        ((List.perm_append_comm).append_left s.processes)
      rw [← List.append_assoc] at h3
      exact h3
  · rw [if_neg hc]
    exact ⟨rem, hperm, herr⟩

theorem schedStep_inv (c : Nat) (status : String → Int) (fin : Nat → Bool)
    (s : SchedState) (h : SchedInv s) : SchedInv (schedStep c status fin s) := by
  obtain ⟨rem1, hperm1, herr1⟩ := spawnStep_inv c status s h
  obtain ⟨rem2, hperm2, herr2, hfin2⟩ := pollGo_spec fin 0
    (spawnStep c status s).processes (spawnStep c status s).hadError
  refine ⟨rem2 ++ rem1, ?_, ?_⟩
  · show (spawnStep c status s).spawned.Perm
      ((pollGo fin 0 (spawnStep c status s).processes
        (spawnStep c status s).hadError).1 ++ (rem2 ++ rem1))
    have h3 := hperm1.trans (hperm2.append_right rem1)
    rw [List.append_assoc] at h3
    exact h3
  · show (pollGo fin 0 (spawnStep c status s).processes
      (spawnStep c status s).hadError).2
      = (rem2 ++ rem1).any (fun p => p.2 != 0)
    rw [herr2, herr1, List.any_append, Bool.or_comm]

theorem schedGuard_false_processes {s : SchedState}
    (hg : schedGuard s = false) : s.processes = [] := by
  cases hp : s.processes with
  | nil => rfl
  | cons q qs =>
    rw [schedGuard, hp] at hg
    simp at hg

theorem runSched_final (c : Nat) (status : String → Int)
    (oracle : Nat → Nat → Bool) :
    ∀ (fuel : Nat) (s : SchedState) (b : Bool) (sf : SchedState),
    SchedInv s → runSched c status oracle fuel s = some (b, sf) →
    SchedInv sf ∧ b = !sf.hadError ∧ sf.processes = [] := by
  intro fuel
  induction fuel with
  | zero =>
    intro s b sf hinv hrun
    rw [runSched] at hrun
    cases hg : schedGuard s with
    | true =>
      rw [if_pos hg] at hrun
      simp at hrun
    | false =>
      rw [if_neg (by rw [hg]; simp)] at hrun
      have h2 := Option.some.inj hrun
      have hb : b = !s.hadError := (congrArg Prod.fst h2).symm
      have hs : sf = s := (congrArg Prod.snd h2).symm
      subst hs
      exact ⟨hinv, hb, schedGuard_false_processes hg⟩
  | succ f ih =>
    intro s b sf hinv hrun
    rw [runSched] at hrun
    cases hg : schedGuard s with
    | true =>
      rw [if_pos hg] at hrun
      exact ih (schedStep c status (oracle s.round) s) b sf
        (schedStep_inv c status (oracle s.round) s hinv) hrun
    | false =>
      rw [if_neg (by rw [hg]; simp)] at hrun
      have h2 := Option.some.inj hrun
      have hb : b = !s.hadError := (congrArg Prod.fst h2).symm
      have hs : sf = s := (congrArg Prod.snd h2).symm
      subst hs
      exact ⟨hinv, hb, schedGuard_false_processes hg⟩

/-- C4: for every batch of more than one job file, the scheduler loop of
`execute_networks` (run with enough fuel to terminate) returns true if and
only if every spawned worker process exited with status zero; a single
nonzero exit status among the spawned workers makes the whole batch report
failure. -/
theorem execute_networks_success_iff (files : List String) (normSim : String)
    (cpuCount : Nat) (status : String → Int) (oracle : Nat → Nat → Bool)
    (fuel : Nat) (b : Bool) (sf : SchedState) (hn : 1 < files.length)
    (hrun : execute_networks_batch files normSim cpuCount status oracle fuel
      = some (b, sf)) :
    b = true ↔ ∀ p ∈ sf.spawned, p.2 = 0 := by
  clear hn
  have hinv0 : SchedInv (initSched files) :=
    ⟨[], by simp [initSched], by simp [initSched]⟩
  obtain ⟨⟨rem, hperm, herr⟩, hb, hproc⟩ := runSched_final _ _ _ fuel
    (initSched files) b sf hinv0 hrun
  rw [hproc, List.nil_append] at hperm
  subst hb
  constructor
  · intro hbt p hp
    have hhe : sf.hadError = false := by
      cases hh : sf.hadError
      · rfl
      · rw [hh] at hbt
        simp at hbt
    rw [hhe] at herr
    have hall := List.any_eq_false.mp herr.symm
    have hpr : p ∈ rem := hperm.subset hp
    have hz := hall p hpr
    simpa using hz
  · intro hall
    have herr0 : rem.any (fun p => p.2 != 0) = false := by
      apply List.any_eq_false.mpr
      intro p hp
      have hz := hall p (hperm.symm.subset hp)
      simp [hz]
    rw [herr, herr0]
    rfl

/-- C4 witness: two job files, both workers exit 0, the batch reports
success; the success-iff theorem applied at the concrete final state. -/
theorem execute_networks_success_iff_witness :
    1 < (["a", "b"] : List String).length ∧
    (true = true ↔ ∀ p ∈ (⟨[], [], false, 2, [(0, 0), (1, 0)], 2⟩
        : SchedState).spawned, p.2 = 0) :=
  ⟨by decide,
   execute_networks_success_iff ["a", "b"] "spik" 2 (fun _ => 0)
     (fun _ _ => true) 10 true ⟨[], [], false, 2, [(0, 0), (1, 0)], 2⟩
     (by decide)
     (by simp [execute_networks_batch, runSched, schedStep, spawnStep,
       schedGuard, pollGo, initSched, concurrencyFor])⟩

theorem spawnStep_length_le (c : Nat) (status : String → Int) (s : SchedState)
    (h : s.processes.length ≤ c) :
    (spawnStep c status s).processes.length ≤ c := by
  simp only [spawnStep]
  by_cases hc : s.processes.length < c ∧ s.hadError = false ∧ s.cmds ≠ []
  · rw [if_pos hc]
    obtain ⟨h1, -, -⟩ := hc
    cases s.cmds.getLast? with
    | none => exact h
    | some cmd =>
      show (s.processes ++ [(s.nextId, status cmd)]).length ≤ c
      rw [List.length_append, List.length_singleton]
      omega
  · rw [if_neg hc]
    exact h

theorem pollGo_length_le (fin : Nat → Bool) (i : Nat) (ps : List Proc)
    (err : Bool) : (pollGo fin i ps err).1.length ≤ ps.length := by
  obtain ⟨rem, hperm, -, -⟩ := pollGo_spec fin i ps err
  have hl := hperm.length_eq
  rw [List.length_append] at hl
  omega

/-- C6: for every concurrency limit `c ≥ 1` and every job list, at every
state reachable in the scheduling loop of `execute_networks` the number of
worker processes in flight never exceeds `c` — neither at the loop boundary
nor in the intermediate state right after a spawn. -/
theorem scheduler_concurrency_bound (c : Nat) (status : String → Int)
    (files : List String) (s : SchedState) (hc : 1 ≤ c)
    (hr : SchedReaches c status (initSched files) s) :
    s.processes.length ≤ c ∧ (spawnStep c status s).processes.length ≤ c := by
  have key : s.processes.length ≤ c := by
    induction hr with
    | refl => show ([] : List Proc).length ≤ c; simp
    | step u fin hru ih =>
      show (pollGo fin 0 (spawnStep c status u).processes
        (spawnStep c status u).hadError).1.length ≤ c
      exact le_trans (pollGo_length_le fin 0 _ _)
        (spawnStep_length_le c status u ih)
  exact ⟨key, spawnStep_length_le c status s key⟩

/-- C6 witness: the bound theorem applied to the initial state with
concurrency 1. -/
theorem scheduler_concurrency_bound_witness :
    1 ≤ 1 ∧ (initSched ["a"]).processes.length ≤ 1 :=
  ⟨le_refl 1,
   (scheduler_concurrency_bound 1 (fun _ => 0) ["a"] (initSched ["a"])
     (le_refl 1) (SchedReaches.refl _)).1⟩

/-- C7: once a worker failure has been observed (`hadError` set), the spawn
step launches nothing (the state is unchanged, so no new worker is ever
launched afterwards); a poll iteration removes a process from the in-flight
list only when its completion oracle reports it finished, so already-launched
workers run to completion without cancellation; and once the in-flight set
has drained the loop guard is false, the loop terminates immediately and the
batch is reported as failed. -/
theorem scheduler_failure_behavior (c : Nat) (status : String → Int)
    (fin : Nat → Bool) (oracle : Nat → Nat → Bool) (fuel : Nat)
    (s : SchedState) (h : s.hadError = true) :
    spawnStep c status s = s ∧
    (∀ p ∈ s.processes, p ∉ (schedStep c status fin s).processes →
      fin p.1 = true) ∧
    (s.processes = [] → schedGuard s = false ∧
      runSched c status oracle fuel s = some (false, s)) := by
  have hspawn : spawnStep c status s = s := by
    simp only [spawnStep]
    rw [if_neg (by simp [h])]
  refine ⟨hspawn, ?_, ?_⟩
  · intro p hp hnp
    by_contra hf
    have hf' : fin p.1 = false := boolEqFalse hf
    apply hnp
    show p ∈ (pollGo fin 0 (spawnStep c status s).processes
      (spawnStep c status s).hadError).1
    rw [hspawn]
    exact pollGo_mem_of_not_fin fin 0 s.processes s.hadError p hf' hp
  · intro hp
    have hg : schedGuard s = false := by
      simp [schedGuard, hp, h]
    refine ⟨hg, ?_⟩
    cases fuel with
    | zero =>
      rw [runSched, if_neg (by rw [hg]; simp), h]
      rfl
    | succ f =>
      rw [runSched, if_neg (by rw [hg]; simp), h]
      rfl

/-- C7 witness: the failure-behavior theorem applied to a failed, drained
state, showing the loop exits at once and reports failure. -/
theorem scheduler_failure_behavior_witness :
    (⟨[], [], true, 1, [(0, 2)], 1⟩ : SchedState).hadError = true ∧
    ((⟨[], [], true, 1, [(0, 2)], 1⟩ : SchedState).processes = [] →
      schedGuard ⟨[], [], true, 1, [(0, 2)], 1⟩ = false ∧
      runSched 1 (fun _ => 0) (fun _ _ => false) 5
        ⟨[], [], true, 1, [(0, 2)], 1⟩
        = some (false, ⟨[], [], true, 1, [(0, 2)], 1⟩)) :=
  ⟨rfl,
   (scheduler_failure_behavior 1 (fun _ => 0) (fun _ => false)
     (fun _ _ => false) 5 ⟨[], [], true, 1, [(0, 2)], 1⟩ rfl).2.2⟩
